import Mathlib

/-!
Verification development for `chwordlebot.cpp`, an interactive Wordle solver.

Words, guesses and feedback strings are modelled as `List Char`.  The candidate
pool (`std::unordered_set<std::string> m_possibleWords`) is modelled as a
`List (List Char)` whose order stands for the container's iteration order;
constraint sets (`std::unordered_set` of constraint values) are modelled as
`Finset`s, since only value-equality membership matters there.  The C runtime
functions `islower` / `isalpha` / `toupper` are modelled with their "C" locale
(ASCII) semantics.  Failure points of the C++ (the failed `assert` in the
dictionary loader, and the `rand () % 0` reached by `bestWord` on an empty
pool) are modelled as `none` / error results.
-/

namespace CHWordleBot

/-- The length of words we want to work with (`WORD_LENGTH`). -/
def WORD_LENGTH : Nat := 5

/-- A "White" response: the letter does not appear (`NOT_THERE = 'W'`). -/
def NOT_THERE : Char := 'W'

/-- A "Yellow" response: the letter appears elsewhere (`WRONG_SPOT = 'Y'`). -/
def WRONG_SPOT : Char := 'Y'

/-- A "Green" response: the letter appears here (`RIGHT_SPOT = 'G'`). -/
def RIGHT_SPOT : Char := 'G'

/-- A constraint regarding a specific location within a word
(class `PositionConstraint`). -/
structure PositionConstraint where
  m_index : Nat
  m_letter : Char
  m_shouldMatch : Bool
deriving DecidableEq

/-- `PositionConstraint::satisfies`: `(str.at (m_index) == m_letter) == m_shouldMatch`. -/
def PositionConstraint.satisfies (c : PositionConstraint) (str : List Char) : Bool :=
  (str.getD c.m_index ' ' == c.m_letter) == c.m_shouldMatch

/-- A constraint regarding the number of times a letter appears within a word
(class `LetterCountConstraint`). -/
structure LetterCountConstraint where
  m_count : Nat
  m_letter : Char
  m_min : Bool
deriving DecidableEq

/-- `LetterCountConstraint::satisfies`: count occurrences of `m_letter` in `str`,
then compare with `m_count` (`>=` when `m_min`, `<=` otherwise). -/
def LetterCountConstraint.satisfies (c : LetterCountConstraint) (str : List Char) : Bool :=
  let amt := (str.filter (fun ch => ch == c.m_letter)).length
  if c.m_min then decide (c.m_count ≤ amt) else decide (amt ≤ c.m_count)

/-- `ConstraintCollection::generatePositionConstraints`: for each index, a
must-match constraint when feedback is `RIGHT_SPOT` and a may-not-match
constraint when feedback is `WRONG_SPOT`. -/
def generatePositionConstraints (guess feedback : List Char) :
    Finset PositionConstraint :=
  (Finset.range WORD_LENGTH).biUnion (fun index =>
    (if feedback.getD index ' ' == RIGHT_SPOT then
      {⟨index, guess.getD index ' ', true⟩} else ∅) ∪
    (if feedback.getD index ' ' == WRONG_SPOT then
      {⟨index, guess.getD index ' ', false⟩} else ∅))

/-- `ConstraintCollection::generateLetterCountConstraints`, transcribed with the
source's inner-loop condition verbatim: the loop over `c : guess` tests
`feedback[index]` — the feedback at the *outer* index — rather than the
feedback at the position of `c`. -/
def generateLetterCountConstraints (guess feedback : List Char) :
    Finset LetterCountConstraint :=
  (Finset.range WORD_LENGTH).biUnion (fun index =>
    if feedback.getD index ' ' == WRONG_SPOT then
      {⟨(guess.filter (fun c =>
          c == guess.getD index ' ' &&
          (feedback.getD index ' ' == WRONG_SPOT ||
           feedback.getD index ' ' == RIGHT_SPOT))).length,
        guess.getD index ' ', true⟩}
    else if feedback.getD index ' ' == NOT_THERE then
      {⟨(guess.filter (fun c =>
          c == guess.getD index ' ' &&
          (feedback.getD index ' ' == WRONG_SPOT ||
           feedback.getD index ' ' == RIGHT_SPOT))).length,
        guess.getD index ' ', false⟩}
    else ∅)

/-- The count the specification prescribes for the letter at `index`: the number
of positions of `guess` holding that letter whose own feedback is Misplaced or
Exact.  (Stated from the spec, for comparison with the transcribed code.) -/
def specConfirmedCount (guess feedback : List Char) (index : Nat) : Nat :=
  ((List.range WORD_LENGTH).filter (fun j =>
    guess.getD j ' ' == guess.getD index ' ' &&
    (feedback.getD j ' ' == WRONG_SPOT || feedback.getD j ' ' == RIGHT_SPOT))).length

/-- The letter-frequency table computed at the start of `WordCollection::bestWord`:
each character occurrence of each pool word bumps its letter's counter, so the
frequency of `c` is the total number of occurrences of `c` across the pool. -/
def letterFrequencies (pool : List (List Char)) (c : Char) : Nat :=
  (pool.map (fun word => (word.filter (fun ch => ch == c)).length)).sum

/-- The per-word scoring loop of `bestWord`: walk the word, adding `freq c` for
each character not yet in `alreadySeen`, then recording it as seen. -/
def scoreLoop (freq : Char → Nat) : List Char → List Char → Nat
  | [], _ => 0
  | c :: rest, alreadySeen =>
      (if c ∈ alreadySeen then 0 else freq c) + scoreLoop freq rest (c :: alreadySeen)

/-- A word's score in `bestWord`: the scoring loop started with nothing seen. -/
def wordScore (freq : Char → Nat) (word : List Char) : Nat :=
  scoreLoop freq word []

/-- The selection loop of `bestWord`: maintain the current best score and the
words achieving it; a strictly better word resets the collection, an equal
word joins it. -/
def bestLoop (freq : Char → Nat) :
    List (List Char) → List (List Char) → Nat → List (List Char) × Nat
  | [], bestOptions, bestScore => (bestOptions, bestScore)
  | word :: rest, bestOptions, bestScore =>
      if bestScore < wordScore freq word then
        bestLoop freq rest [word] (wordScore freq word)
      else if wordScore freq word = bestScore then
        bestLoop freq rest (bestOptions ++ [word]) bestScore
      else
        bestLoop freq rest bestOptions bestScore

/-- The error kinds of the design. -/
inductive SolverError where
  | EmptyPoolError
deriving DecidableEq

/-- `WordCollection::bestWord`, with the external randomness passed in as `r`:
return the element of `bestOptions` at position `r % bestOptions.size ()`.
On an empty pool `bestOptions` is empty and `rand () % 0` is reached, which
cannot produce a word; that failure is the error result. -/
def bestWord (pool : List (List Char)) (r : Nat) : Except SolverError (List Char) :=
  let bestOptions := (bestLoop (letterFrequencies pool) pool [] 0).1
  if bestOptions.isEmpty then Except.error SolverError.EmptyPoolError
  else Except.ok (bestOptions.getD (r % bestOptions.length) [])

/-- Letter frequency as the specification words it: the number of candidate
words containing the letter at least once (per distinct-letter-per-word).
(Stated from the spec, for comparison with the transcribed code.) -/
def specLetterFrequency (pool : List (List Char)) (c : Char) : Nat :=
  (pool.filter (fun word => word.contains c)).length

/-- A word's score as the specification words it: the sum of the spec's letter
frequencies over the word's distinct letters. -/
def specWordScore (pool : List (List Char)) (word : List Char) : Nat :=
  (word.dedup.map (specLetterFrequency pool)).sum

/-- The state of `ConstraintCollection`: finished and new constraint sets of
each kind. -/
structure ConstraintCollection where
  m_finishedPositionConstraints : Finset PositionConstraint
  m_finishedLetterCountConstraints : Finset LetterCountConstraint
  m_newPositionConstraints : Finset PositionConstraint
  m_newLetterCountConstraints : Finset LetterCountConstraint
deriving DecidableEq

/-- A freshly constructed `ConstraintCollection`: all four sets empty. -/
def emptyCollection : ConstraintCollection := ⟨∅, ∅, ∅, ∅⟩

/-- The per-word test of `ConstraintCollection::processNewConstraints`: a word
stays iff it satisfies every new constraint of both kinds. -/
def wordSurvives (cc : ConstraintCollection) (word : List Char) : Bool :=
  decide (∀ c ∈ cc.m_newPositionConstraints, c.satisfies word = true) &&
  decide (∀ c ∈ cc.m_newLetterCountConstraints, c.satisfies word = true)

/-- `ConstraintCollection::processNewConstraints`: erase every candidate that
violates some new constraint, then merge the new sets into the finished sets,
leaving the new sets empty. -/
def processNewConstraints (cc : ConstraintCollection) (candidates : List (List Char)) :
    ConstraintCollection × List (List Char) :=
  (⟨cc.m_finishedPositionConstraints ∪ cc.m_newPositionConstraints,
    cc.m_finishedLetterCountConstraints ∪ cc.m_newLetterCountConstraints,
    ∅, ∅⟩,
   candidates.filter (wordSurvives cc))

/-- `ConstraintCollection::addPositionConstraint`: insert into the new set
unless already finished. -/
def addPositionConstraint (cc : ConstraintCollection) (c : PositionConstraint) :
    ConstraintCollection :=
  if c ∈ cc.m_finishedPositionConstraints then cc
  else { cc with m_newPositionConstraints := insert c cc.m_newPositionConstraints }

/-- `ConstraintCollection::addLetterCountConstraint`: insert into the new set
unless already finished. -/
def addLetterCountConstraint (cc : ConstraintCollection) (c : LetterCountConstraint) :
    ConstraintCollection :=
  if c ∈ cc.m_finishedLetterCountConstraints then cc
  else { cc with m_newLetterCountConstraints := insert c cc.m_newLetterCountConstraints }

/-- One round's admissions, as performed by `main`: all position constraints,
then all letter-count constraints. -/
def admitRound (cc : ConstraintCollection) (ps : List PositionConstraint)
    (ls : List LetterCountConstraint) : ConstraintCollection :=
  ls.foldl addLetterCountConstraint (ps.foldl addPositionConstraint cc)

/-- One round of `main`'s loop acting on the solver state: admit a batch of
constraints, then process the new constraints against the pool. -/
def runRound (s : ConstraintCollection × List (List Char))
    (batch : List PositionConstraint × List LetterCountConstraint) :
    ConstraintCollection × List (List Char) :=
  processNewConstraints (admitRound s.1 batch.1 batch.2) s.2

/-- A run of `main`'s loop over a sequence of constraint batches. -/
def runRounds (s : ConstraintCollection × List (List Char))
    (batches : List (List PositionConstraint × List LetterCountConstraint)) :
    ConstraintCollection × List (List Char) :=
  batches.foldl runRound s

/-- A word satisfies every finished constraint of both kinds. -/
def satisfiesFinished (cc : ConstraintCollection) (word : List Char) : Prop :=
  (∀ c ∈ cc.m_finishedPositionConstraints, c.satisfies word = true) ∧
  (∀ c ∈ cc.m_finishedLetterCountConstraints, c.satisfies word = true)

/-- `islower` in the "C" locale. -/
def isLowerC (c : Char) : Bool := decide ('a' ≤ c) && decide (c ≤ 'z')

/-- `isupper` in the "C" locale. -/
def isUpperC (c : Char) : Bool := decide ('A' ≤ c) && decide (c ≤ 'Z')

/-- `isalpha` in the "C" locale. -/
def isAlphaC (c : Char) : Bool := isLowerC c || isUpperC c

/-- `toupper` in the "C" locale, applied (as the loader does) only to lowercase
characters. -/
def toUpperC (c : Char) : Char :=
  if isLowerC c then Char.ofNat (c.toNat - 32) else c

/-- The case normalization the loader performs on a token it examines. -/
def normalizeWord (t : List Char) : List Char := t.map toUpperC

/-- The loader's per-character acceptance test: the character is lowercase
(it gets uppercased) or, failing that, must be alphabetic. -/
def charOk (c : Char) : Bool := isLowerC c || isAlphaC c

/-- `WordCollection::WordCollection`, the dictionary loader: keep tokens of
exactly `WORD_LENGTH` characters that pass the per-character test, uppercase
them, and insert each into the accumulated collection; `assert
(m_possibleWords.count (temp) == 0)` fires — modelled as `none` — when the
normalized token is already present. -/
def loadWords : List (List Char) → List (List Char) → Option (List (List Char))
  | [], acc => some acc
  | t :: ts, acc =>
      if t.length = WORD_LENGTH then
        if t.all charOk then
          if normalizeWord t ∈ acc then none
          else loadWords ts (acc ++ [normalizeWord t])
        else loadWords ts acc
      else loadWords ts acc

/-- The tokens the loader keeps, in order, after normalization. -/
def keptWords : List (List Char) → List (List Char)
  | [] => []
  | t :: ts =>
      if t.length = WORD_LENGTH ∧ t.all charOk = true then
        normalizeWord t :: keptWords ts
      else keptWords ts

/-- Membership in the derived position-constraint set, characterized
index-by-index. -/
theorem mem_generatePositionConstraints (guess feedback : List Char)
    (pc : PositionConstraint) :
    pc ∈ generatePositionConstraints guess feedback ↔
      ∃ index, index < WORD_LENGTH ∧
        ((feedback.getD index ' ' = RIGHT_SPOT ∧
            pc = ⟨index, guess.getD index ' ', true⟩) ∨
         (feedback.getD index ' ' = WRONG_SPOT ∧
            pc = ⟨index, guess.getD index ' ', false⟩)) := by
  simp only [generatePositionConstraints, Finset.mem_biUnion, Finset.mem_range,
    Finset.mem_union]
  refine exists_congr fun i => and_congr_right fun hi => ?_
  by_cases hG : (feedback.getD i ' ' == RIGHT_SPOT) = true <;>
    by_cases hY : (feedback.getD i ' ' == WRONG_SPOT) = true <;>
    simp_all [beq_iff_eq]

/-- C4: for valid guess and feedback, `derivePositionConstraints` yields
exactly a must-equal constraint `(index, guess[index], true)` for each Exact
index and a must-not-equal constraint `(index, guess[index], false)` for each
Misplaced index, and nothing for Absent indices (set semantics collapsing
value-equal duplicates). -/
theorem derivePositionConstraints_exact (guess feedback : List Char)
    (hg : guess.length = WORD_LENGTH) (hf : feedback.length = WORD_LENGTH)
    (hga : ∀ c ∈ guess, 'A' ≤ c ∧ c ≤ 'Z')
    (hfa : ∀ c ∈ feedback, c = NOT_THERE ∨ c = WRONG_SPOT ∨ c = RIGHT_SPOT)
    (pc : PositionConstraint) :
    pc ∈ generatePositionConstraints guess feedback ↔
      ∃ index, index < WORD_LENGTH ∧
        ((feedback.getD index ' ' = RIGHT_SPOT ∧
            pc = ⟨index, guess.getD index ' ', true⟩) ∨
         (feedback.getD index ' ' = WRONG_SPOT ∧
            pc = ⟨index, guess.getD index ' ', false⟩)) :=
  mem_generatePositionConstraints guess feedback pc

/-- Witness for C4 at the spec's example: guess `CRANE`, feedback
`Exact,Absent,Absent,Absent,Absent`, whose only position constraint is the
must-equal at index 0 for letter C. -/
theorem derivePositionConstraints_exact_witness :
    (['C','R','A','N','E'].length = WORD_LENGTH ∧
      generatePositionConstraints ['C','R','A','N','E'] ['G','W','W','W','W'] =
        {⟨0, 'C', true⟩}) ∧
    ((⟨0, 'C', true⟩ : PositionConstraint) ∈
        generatePositionConstraints ['C','R','A','N','E'] ['G','W','W','W','W'] ↔
      ∃ index, index < WORD_LENGTH ∧
        ((['G','W','W','W','W'].getD index ' ' = RIGHT_SPOT ∧
            (⟨0, 'C', true⟩ : PositionConstraint) =
              ⟨index, ['C','R','A','N','E'].getD index ' ', true⟩) ∨
         (['G','W','W','W','W'].getD index ' ' = WRONG_SPOT ∧
            (⟨0, 'C', true⟩ : PositionConstraint) =
              ⟨index, ['C','R','A','N','E'].getD index ' ', false⟩))) :=
  ⟨by decide,
   derivePositionConstraints_exact ['C','R','A','N','E'] ['G','W','W','W','W']
     (by decide) (by decide) (by decide) (by decide) ⟨0, 'C', true⟩⟩

/-- C1: on guess `ALLOW` with feedback `Misplaced,Absent,Exact,Absent,Absent`,
the code emits a maximum constraint of count 0 — not 1 — for the Absent L at
index 1, because its inner loop tests the feedback at the outer index instead
of the feedback at each copy's own position; the count the claim prescribes at
that index is 1 (the Exact L at index 2). -/
theorem letterCount_absent_l_count_zero :
    (⟨0, 'L', false⟩ : LetterCountConstraint) ∈
      generateLetterCountConstraints ['A','L','L','O','W'] ['Y','W','G','W','W'] ∧
    (⟨1, 'L', false⟩ : LetterCountConstraint) ∉
      generateLetterCountConstraints ['A','L','L','O','W'] ['Y','W','G','W','W'] ∧
    specConfirmedCount ['A','L','L','O','W'] ['Y','W','G','W','W'] 1 = 1 := by
  decide

/-- C3: on an empty candidate pool, `bestWord` fails with the empty-pool error
instead of returning a word, for every value of the external randomness. -/
theorem bestWord_empty_pool (r : Nat) :
    bestWord [] r = Except.error SolverError.EmptyPoolError := rfl

/-- C10 counterexample: on the all-identical guess `LLLLL` with feedback
`Misplaced,Absent,Absent,Absent,Absent`, the code emits a minimum constraint
with count 5, violating the constructor's assertion `m_count < WORD_LENGTH`. -/
theorem letterCount_assert_violated :
    (⟨5, 'L', true⟩ : LetterCountConstraint) ∈
      generateLetterCountConstraints ['L','L','L','L','L'] ['Y','W','W','W','W'] ∧
    ¬ (5 < WORD_LENGTH) := by
  decide

/-- A member of a list is recovered by `getD` at some index below the length. -/
theorem exists_getD_of_mem {α : Type} (l : List α) (a d : α) (h : a ∈ l) :
    ∃ i, i < l.length ∧ l.getD i d = a := by
  induction l with
  | nil => simp at h
  | cons b l ih =>
      rcases List.mem_cons.mp h with rfl | h
      · exact ⟨0, by simp, rfl⟩
      · obtain ⟨i, hi, hg⟩ := ih h
        exact ⟨i + 1, by simp [Nat.succ_lt_succ hi], by simpa using hg⟩

/-- Invariant of the selection loop of `bestWord`: provided every current best
option scores the current best score, the loop returns (1) options that all
score the final best score, with the final best score (2) at least the initial
one and (3) at least every remaining word's score; (4) every returned option is
an initial option or a remaining word; (5) every remaining word scoring the
final best score is returned; (6) if the best score did not change, the initial
options are all retained; (7) the final best score is the initial one or is
attained by a remaining word. -/
theorem bestLoop_spec (freq : Char → Nat) (rest : List (List Char)) :
    ∀ (bestOptions : List (List Char)) (bestScore : Nat),
      (∀ b ∈ bestOptions, wordScore freq b = bestScore) →
      (∀ b ∈ (bestLoop freq rest bestOptions bestScore).1,
          wordScore freq b = (bestLoop freq rest bestOptions bestScore).2) ∧
      bestScore ≤ (bestLoop freq rest bestOptions bestScore).2 ∧
      (∀ w ∈ rest, wordScore freq w ≤ (bestLoop freq rest bestOptions bestScore).2) ∧
      (∀ b ∈ (bestLoop freq rest bestOptions bestScore).1, b ∈ bestOptions ∨ b ∈ rest) ∧
      (∀ w ∈ rest, wordScore freq w = (bestLoop freq rest bestOptions bestScore).2 →
          w ∈ (bestLoop freq rest bestOptions bestScore).1) ∧
      ((bestLoop freq rest bestOptions bestScore).2 = bestScore →
          ∀ b ∈ bestOptions, b ∈ (bestLoop freq rest bestOptions bestScore).1) ∧
      ((bestLoop freq rest bestOptions bestScore).2 = bestScore ∨
          ∃ w ∈ rest, wordScore freq w = (bestLoop freq rest bestOptions bestScore).2) := by
  induction rest with
  | nil =>
      intro bestOptions bestScore hinv
      simp only [bestLoop]
      exact ⟨hinv, le_refl _, by simp, fun b hb => Or.inl hb, by simp,
        fun _ b hb => hb, Or.inl (by simp)⟩
  | cons word rest ih =>
      intro bestOptions bestScore hinv
      simp only [bestLoop]
      by_cases h1 : bestScore < wordScore freq word
      · rw [if_pos h1]
        obtain ⟨c1, c2, c3, c4, c5, c6, c7⟩ :=
          ih [word] (wordScore freq word) (by intro b hb; simp at hb; subst hb; rfl)
        refine ⟨c1, by omega, ?_, ?_, ?_, ?_, ?_⟩
        · intro w hw
          rcases List.mem_cons.mp hw with rfl | hw
          · exact c2
          · exact c3 w hw
        · intro b hb
          rcases c4 b hb with hb' | hb'
          · simp at hb'; subst hb'; exact Or.inr (List.mem_cons_self _ _)
          · exact Or.inr (List.mem_cons_of_mem _ hb')
        · intro w hw hsc
          rcases List.mem_cons.mp hw with rfl | hw
          · exact c6 hsc.symm w (by simp)
          · exact c5 w hw hsc
        · intro hres
          exfalso; omega
        · rcases c7 with h | ⟨w, hw, hsc⟩
          · exact Or.inr ⟨word, List.mem_cons_self _ _, h.symm⟩
          · exact Or.inr ⟨w, List.mem_cons_of_mem _ hw, hsc⟩
      · rw [if_neg h1]
        by_cases h2 : wordScore freq word = bestScore
        · rw [if_pos h2]
          obtain ⟨c1, c2, c3, c4, c5, c6, c7⟩ :=
            ih (bestOptions ++ [word]) bestScore (by
              intro b hb
              rcases List.mem_append.mp hb with hb' | hb'
              · exact hinv b hb'
              · simp at hb'; subst hb'; exact h2)
          refine ⟨c1, c2, ?_, ?_, ?_, ?_, ?_⟩
          · intro w hw
            rcases List.mem_cons.mp hw with rfl | hw
            · omega
            · exact c3 w hw
          · intro b hb
            rcases c4 b hb with hb' | hb'
            · rcases List.mem_append.mp hb' with h' | h'
              · exact Or.inl h'
              · simp at h'; subst h'; exact Or.inr (List.mem_cons_self _ _)
            · exact Or.inr (List.mem_cons_of_mem _ hb')
          · intro w hw hsc
            rcases List.mem_cons.mp hw with rfl | hw
            · exact c6 (by omega) w (by simp)
            · exact c5 w hw hsc
          · intro hres b hb
            exact c6 hres b (List.mem_append_left _ hb)
          · rcases c7 with h | ⟨w, hw, hsc⟩
            · exact Or.inl h
            · exact Or.inr ⟨w, List.mem_cons_of_mem _ hw, hsc⟩
        · rw [if_neg h2]
          obtain ⟨c1, c2, c3, c4, c5, c6, c7⟩ := ih bestOptions bestScore hinv
          have h3 : wordScore freq word < bestScore := by omega
          refine ⟨c1, c2, ?_, ?_, ?_, c6, ?_⟩
          · intro w hw
            rcases List.mem_cons.mp hw with rfl | hw
            · omega
            · exact c3 w hw
          · intro b hb
            rcases c4 b hb with hb' | hb'
            · exact Or.inl hb'
            · exact Or.inr (List.mem_cons_of_mem _ hb')
          · intro w hw hsc
            rcases List.mem_cons.mp hw with rfl | hw
            · exfalso; omega
            · exact c5 w hw hsc
          · rcases c7 with h | ⟨w, hw, hsc⟩
            · exact Or.inl h
            · exact Or.inr ⟨w, List.mem_cons_of_mem _ hw, hsc⟩

/-- C2 counterexample: on the pool `{AAAAA, AAAAB, BCDEF}` the code returns
`AAAAB` (its per-occurrence scoring gives it 11, the unique maximum), yet under
the claimed per-distinct-letter-per-word frequency `AAAAB` scores 4 while the
pool member `BCDEF` scores 6, so the returned word does not achieve the claimed
maximum. -/
theorem bestWord_not_specScore_maximal :
    bestWord [['A','A','A','A','A'], ['A','A','A','A','B'], ['B','C','D','E','F']] 0 =
      Except.ok ['A','A','A','A','B'] ∧
    ['B','C','D','E','F'] ∈
      [['A','A','A','A','A'], ['A','A','A','A','B'], ['B','C','D','E','F']] ∧
    specWordScore [['A','A','A','A','A'], ['A','A','A','A','B'], ['B','C','D','E','F']]
        ['A','A','A','A','B'] <
      specWordScore [['A','A','A','A','A'], ['A','A','A','A','B'], ['B','C','D','E','F']]
        ['B','C','D','E','F'] :=
  ⟨rfl, by decide, by decide⟩

/-- C2 amended: whatever the external randomness, `bestWord` returns a member
of the pool achieving the maximum score, where a letter's frequency is its
total number of occurrences across the pool (per occurrence) and a word's
score sums those frequencies over its distinct letters. -/
theorem bestWord_mem_maximal (pool : List (List Char)) (r : Nat) (w : List Char)
    (h : bestWord pool r = Except.ok w) :
    w ∈ pool ∧ ∀ v ∈ pool,
      wordScore (letterFrequencies pool) v ≤ wordScore (letterFrequencies pool) w := by
  obtain ⟨c1, c2, c3, c4, c5, c6, c7⟩ :=
    bestLoop_spec (letterFrequencies pool) pool [] 0 (by simp)
  simp only [bestWord] at h
  by_cases he : ((bestLoop (letterFrequencies pool) pool [] 0).1).isEmpty
  · rw [if_pos he] at h
    exact absurd h (by simp)
  · rw [if_neg he] at h
    have hw : ((bestLoop (letterFrequencies pool) pool [] 0).1).getD
        (r % ((bestLoop (letterFrequencies pool) pool [] 0).1).length) [] = w := by
      injection h
    have hlen : 0 < ((bestLoop (letterFrequencies pool) pool [] 0).1).length := by
      cases hres : (bestLoop (letterFrequencies pool) pool [] 0).1 with
      | nil => rw [hres] at he; simp at he
      | cons a l => simp
    have hmem : w ∈ (bestLoop (letterFrequencies pool) pool [] 0).1 := by
      rw [← hw, List.getD_eq_getElem _ _ (Nat.mod_lt _ hlen)]
      exact List.getElem_mem _
    have hpool : w ∈ pool := by
      rcases c4 w hmem with h' | h'
      · simp at h'
      · exact h'
    refine ⟨hpool, fun v hv => ?_⟩
    have := c3 v hv
    have := c1 w hmem
    omega

/-- C8: every pool word achieving the maximal score is returned by `bestWord`
for some value of the external randomness — no tied candidate is
unreachable. -/
theorem bestWord_tie_reachable (pool : List (List Char)) (w : List Char)
    (hw : w ∈ pool)
    (hmax : ∀ v ∈ pool,
      wordScore (letterFrequencies pool) v ≤ wordScore (letterFrequencies pool) w) :
    ∃ r, bestWord pool r = Except.ok w := by
  obtain ⟨c1, c2, c3, c4, c5, c6, c7⟩ :=
    bestLoop_spec (letterFrequencies pool) pool [] 0 (by simp)
  have hsc : wordScore (letterFrequencies pool) w =
      (bestLoop (letterFrequencies pool) pool [] 0).2 := by
    rcases c7 with h | ⟨v, hv, hvsc⟩
    · have := c3 w hw; omega
    · have h1 := hmax v hv; have h2 := c3 w hw; omega
  have hwmem : w ∈ (bestLoop (letterFrequencies pool) pool [] 0).1 := c5 w hw hsc
  obtain ⟨i, hi, hgi⟩ := exists_getD_of_mem _ w [] hwmem
  have hne : ((bestLoop (letterFrequencies pool) pool [] 0).1).isEmpty = false := by
    cases hres : (bestLoop (letterFrequencies pool) pool [] 0).1 with
    | nil => rw [hres] at hwmem; simp at hwmem
    | cons a l => simp
  refine ⟨i, ?_⟩
  simp only [bestWord]
  rw [if_neg (by simp [hne])]
  rw [Nat.mod_eq_of_lt hi, hgi]

/-- Witness for C2 (amended): at the counterexample pool with randomness 0 the
returned `AAAAB` is a pool member maximizing the per-occurrence score. -/
theorem bestWord_mem_maximal_witness :
    ['A','A','A','A','B'] ∈
      [['A','A','A','A','A'], ['A','A','A','A','B'], ['B','C','D','E','F']] ∧
    ∀ v ∈ [['A','A','A','A','A'], ['A','A','A','A','B'], ['B','C','D','E','F']],
      wordScore (letterFrequencies
          [['A','A','A','A','A'], ['A','A','A','A','B'], ['B','C','D','E','F']]) v ≤
        wordScore (letterFrequencies
          [['A','A','A','A','A'], ['A','A','A','A','B'], ['B','C','D','E','F']])
          ['A','A','A','A','B'] :=
  bestWord_mem_maximal _ 0 ['A','A','A','A','B'] rfl

/-- Witness for C8: in the pool `{AAAAA, BBBBB}` both words tie at score 5, and
the tied candidate `BBBBB` is reached by some randomness value. -/
theorem bestWord_tie_reachable_witness :
    ∃ r, bestWord [['A','A','A','A','A'], ['B','B','B','B','B']] r =
      Except.ok ['B','B','B','B','B'] :=
  bestWord_tie_reachable _ _ (by decide) (by decide)

/-- Admitting a position constraint leaves both finished sets untouched. -/
theorem addPositionConstraint_finished (cc : ConstraintCollection) (c : PositionConstraint) :
    (addPositionConstraint cc c).m_finishedPositionConstraints =
      cc.m_finishedPositionConstraints ∧
    (addPositionConstraint cc c).m_finishedLetterCountConstraints =
      cc.m_finishedLetterCountConstraints := by
  unfold addPositionConstraint
  split <;> exact ⟨rfl, rfl⟩

/-- Admitting a letter-count constraint leaves both finished sets untouched. -/
theorem addLetterCountConstraint_finished (cc : ConstraintCollection)
    (c : LetterCountConstraint) :
    (addLetterCountConstraint cc c).m_finishedPositionConstraints =
      cc.m_finishedPositionConstraints ∧
    (addLetterCountConstraint cc c).m_finishedLetterCountConstraints =
      cc.m_finishedLetterCountConstraints := by
  unfold addLetterCountConstraint
  split <;> exact ⟨rfl, rfl⟩

/-- A round of admissions leaves both finished sets untouched. -/
theorem admitRound_finished (cc : ConstraintCollection) (ps : List PositionConstraint)
    (ls : List LetterCountConstraint) :
    (admitRound cc ps ls).m_finishedPositionConstraints =
      cc.m_finishedPositionConstraints ∧
    (admitRound cc ps ls).m_finishedLetterCountConstraints =
      cc.m_finishedLetterCountConstraints := by
  have hps : ∀ (qs : List PositionConstraint) (dd : ConstraintCollection),
      (qs.foldl addPositionConstraint dd).m_finishedPositionConstraints =
        dd.m_finishedPositionConstraints ∧
      (qs.foldl addPositionConstraint dd).m_finishedLetterCountConstraints =
        dd.m_finishedLetterCountConstraints := by
    intro qs
    induction qs with
    | nil => intro dd; exact ⟨rfl, rfl⟩
    | cons q qs ih =>
        intro dd
        simp only [List.foldl_cons]
        obtain ⟨h1, h2⟩ := ih (addPositionConstraint dd q)
        obtain ⟨g1, g2⟩ := addPositionConstraint_finished dd q
        exact ⟨h1.trans g1, h2.trans g2⟩
  have hls : ∀ (ms : List LetterCountConstraint) (dd : ConstraintCollection),
      (ms.foldl addLetterCountConstraint dd).m_finishedPositionConstraints =
        dd.m_finishedPositionConstraints ∧
      (ms.foldl addLetterCountConstraint dd).m_finishedLetterCountConstraints =
        dd.m_finishedLetterCountConstraints := by
    intro ms
    induction ms with
    | nil => intro dd; exact ⟨rfl, rfl⟩
    | cons m ms ih =>
        intro dd
        simp only [List.foldl_cons]
        obtain ⟨h1, h2⟩ := ih (addLetterCountConstraint dd m)
        obtain ⟨g1, g2⟩ := addLetterCountConstraint_finished dd m
        exact ⟨h1.trans g1, h2.trans g2⟩
  unfold admitRound
  obtain ⟨h1, h2⟩ := hls ls (ps.foldl addPositionConstraint cc)
  obtain ⟨g1, g2⟩ := hps ps cc
  exact ⟨h1.trans g1, h2.trans g2⟩

/-- Processing the new constraints is sound: if every pool word satisfied the
finished constraints before, every surviving word satisfies the (enlarged)
finished constraints after. -/
theorem processNewConstraints_sound (cc : ConstraintCollection) (pool : List (List Char))
    (hbefore : ∀ w ∈ pool, satisfiesFinished cc w) :
    ∀ w ∈ (processNewConstraints cc pool).2,
      satisfiesFinished (processNewConstraints cc pool).1 w := by
  intro w hw
  simp only [processNewConstraints, List.mem_filter] at hw
  obtain ⟨hwp, hws⟩ := hw
  obtain ⟨hb1, hb2⟩ := hbefore w hwp
  simp only [wordSurvives, Bool.and_eq_true, decide_eq_true_eq] at hws
  constructor
  · intro c hc
    simp only [processNewConstraints] at hc
    rcases Finset.mem_union.mp hc with h | h
    · exact hb1 c h
    · exact hws.1 c h
  · intro c hc
    simp only [processNewConstraints] at hc
    rcases Finset.mem_union.mp hc with h | h
    · exact hb2 c h
    · exact hws.2 c h

/-- One round of the loop preserves soundness of the finished sets. -/
theorem runRound_sound (s : ConstraintCollection × List (List Char))
    (batch : List PositionConstraint × List LetterCountConstraint)
    (h : ∀ w ∈ s.2, satisfiesFinished s.1 w) :
    ∀ w ∈ (runRound s batch).2, satisfiesFinished (runRound s batch).1 w := by
  have hadm : ∀ w ∈ s.2, satisfiesFinished (admitRound s.1 batch.1 batch.2) w := by
    intro w hw
    obtain ⟨f1, f2⟩ := admitRound_finished s.1 batch.1 batch.2
    obtain ⟨h1, h2⟩ := h w hw
    exact ⟨f1 ▸ h1, f2 ▸ h2⟩
  exact processNewConstraints_sound _ _ hadm

/-- A whole run preserves soundness of the finished sets. -/
theorem runRounds_sound (batches : List (List PositionConstraint × List LetterCountConstraint)) :
    ∀ s : ConstraintCollection × List (List Char),
      (∀ w ∈ s.2, satisfiesFinished s.1 w) →
      ∀ w ∈ (runRounds s batches).2, satisfiesFinished (runRounds s batches).1 w := by
  induction batches with
  | nil => intro s h; simpa [runRounds] using h
  | cons b bs ih =>
      intro s h
      simp only [runRounds, List.foldl_cons]
      exact ih (runRound s b) (runRound_sound s b h)

/-- C5: in any run from a fresh ledger, after every call to
`processNewConstraints` every word remaining in the candidate pool satisfies
every constraint in the finished sets of both constraint kinds. -/
theorem applyPending_sound (pool : List (List Char))
    (batches : List (List PositionConstraint × List LetterCountConstraint))
    (batch : List PositionConstraint × List LetterCountConstraint) :
    ∀ w ∈ (runRound (runRounds (emptyCollection, pool) batches) batch).2,
      satisfiesFinished (runRound (runRounds (emptyCollection, pool) batches) batch).1 w := by
  apply runRound_sound
  apply runRounds_sound
  intro w _
  exact ⟨fun c hc => absurd hc (by simp [emptyCollection]),
         fun c hc => absurd hc (by simp [emptyCollection])⟩

/-- Witness for C5: one round on the pool `{AAAAA}` admitting the constraint
"position 0 must be A"; the surviving word satisfies the finished set. -/
theorem applyPending_sound_witness :
    satisfiesFinished
      (runRound (runRounds (emptyCollection, [['A','A','A','A','A']]) [])
        ([⟨0, 'A', true⟩], [])).1 ['A','A','A','A','A'] :=
  applyPending_sound [['A','A','A','A','A']] [] ([⟨0, 'A', true⟩], [])
    ['A','A','A','A','A'] (by decide)

/-- Admitting a position constraint already finished is a no-op. -/
theorem addPositionConstraint_of_finished (cc : ConstraintCollection)
    (c : PositionConstraint) (h : c ∈ cc.m_finishedPositionConstraints) :
    addPositionConstraint cc c = cc := by
  unfold addPositionConstraint
  rw [if_pos h]

/-- Admitting a letter-count constraint already finished is a no-op. -/
theorem addLetterCountConstraint_of_finished (cc : ConstraintCollection)
    (c : LetterCountConstraint) (h : c ∈ cc.m_finishedLetterCountConstraints) :
    addLetterCountConstraint cc c = cc := by
  unfold addLetterCountConstraint
  rw [if_pos h]

/-- C6: admission is idempotent for both constraint kinds: admitting the same
constraint twice in a round equals admitting it once; a constraint already in
the finished set is not admitted at all (the state is unchanged, so it is
never re-added to the new set); and re-admitting a constraint after the round
that promoted it to finished leaves the ledger unchanged. -/
theorem admit_idempotent (cc : ConstraintCollection) (pool : List (List Char))
    (pc : PositionConstraint) (lc : LetterCountConstraint) :
    addPositionConstraint (addPositionConstraint cc pc) pc = addPositionConstraint cc pc ∧
    addLetterCountConstraint (addLetterCountConstraint cc lc) lc =
      addLetterCountConstraint cc lc ∧
    (pc ∈ cc.m_finishedPositionConstraints → addPositionConstraint cc pc = cc) ∧
    (lc ∈ cc.m_finishedLetterCountConstraints → addLetterCountConstraint cc lc = cc) ∧
    addPositionConstraint (processNewConstraints (addPositionConstraint cc pc) pool).1 pc =
      (processNewConstraints (addPositionConstraint cc pc) pool).1 ∧
    addLetterCountConstraint
        (processNewConstraints (addLetterCountConstraint cc lc) pool).1 lc =
      (processNewConstraints (addLetterCountConstraint cc lc) pool).1 := by
  refine ⟨?_, ?_, ?_, ?_, ?_, ?_⟩
  · unfold addPositionConstraint
    by_cases h : pc ∈ cc.m_finishedPositionConstraints
    · simp [h]
    · simp [h, Finset.insert_idem]
  · unfold addLetterCountConstraint
    by_cases h : lc ∈ cc.m_finishedLetterCountConstraints
    · simp [h]
    · simp [h, Finset.insert_idem]
  · exact addPositionConstraint_of_finished cc pc
  · exact addLetterCountConstraint_of_finished cc lc
  · have hmem : pc ∈ (processNewConstraints
        (addPositionConstraint cc pc) pool).1.m_finishedPositionConstraints := by
      simp only [processNewConstraints, addPositionConstraint]
      by_cases h : pc ∈ cc.m_finishedPositionConstraints
      · simp [h]
      · simp [h]
    exact addPositionConstraint_of_finished _ _ hmem
  · have hmem : lc ∈ (processNewConstraints
        (addLetterCountConstraint cc lc) pool).1.m_finishedLetterCountConstraints := by
      simp only [processNewConstraints, addLetterCountConstraint]
      by_cases h : lc ∈ cc.m_finishedLetterCountConstraints
      · simp [h]
      · simp [h]
    exact addLetterCountConstraint_of_finished _ _ hmem

/-- Witness for C6: a ledger whose finished sets already hold the two
constraints ignores their re-admission. -/
theorem admit_idempotent_witness :
    addPositionConstraint
        (⟨{⟨0, 'A', true⟩}, {⟨1, 'B', true⟩}, ∅, ∅⟩ : ConstraintCollection)
        ⟨0, 'A', true⟩ =
      (⟨{⟨0, 'A', true⟩}, {⟨1, 'B', true⟩}, ∅, ∅⟩ : ConstraintCollection) ∧
    addLetterCountConstraint
        (⟨{⟨0, 'A', true⟩}, {⟨1, 'B', true⟩}, ∅, ∅⟩ : ConstraintCollection)
        ⟨1, 'B', true⟩ =
      (⟨{⟨0, 'A', true⟩}, {⟨1, 'B', true⟩}, ∅, ∅⟩ : ConstraintCollection) :=
  ⟨(admit_idempotent ⟨{⟨0, 'A', true⟩}, {⟨1, 'B', true⟩}, ∅, ∅⟩ []
      ⟨0, 'A', true⟩ ⟨1, 'B', true⟩).2.2.1 (by decide),
   (admit_idempotent ⟨{⟨0, 'A', true⟩}, {⟨1, 'B', true⟩}, ∅, ∅⟩ []
      ⟨0, 'A', true⟩ ⟨1, 'B', true⟩).2.2.2.1 (by decide)⟩

/-- One round's pool is a sublist of the previous pool. -/
theorem runRound_sublist (s : ConstraintCollection × List (List Char))
    (batch : List PositionConstraint × List LetterCountConstraint) :
    (runRound s batch).2.Sublist s.2 := by
  simp only [runRound, processNewConstraints]
  exact List.filter_sublist _

/-- A whole run's pool is a sublist of the starting pool. -/
theorem runRounds_sublist (batches : List (List PositionConstraint × List LetterCountConstraint)) :
    ∀ s : ConstraintCollection × List (List Char), (runRounds s batches).2.Sublist s.2 := by
  induction batches with
  | nil => intro s; simp [runRounds]
  | cons b bs ih =>
      intro s
      simp only [runRounds, List.foldl_cons]
      exact (ih (runRound s b)).trans (runRound_sublist s b)

/-- C7: the candidate pool is monotone along any run: extending a run of
constraint batches never increases the pool's size, the pool never exceeds the
starting pool, and a word absent after some batches stays absent after any
further batches — the pool never regains a word once removed. -/
theorem pool_monotone (s : ConstraintCollection × List (List Char))
    (batches more : List (List PositionConstraint × List LetterCountConstraint)) :
    (runRounds s (batches ++ more)).2.length ≤ (runRounds s batches).2.length ∧
    (runRounds s batches).2.length ≤ s.2.length ∧
    ∀ w, w ∉ (runRounds s batches).2 → w ∉ (runRounds s (batches ++ more)).2 := by
  have happ : runRounds s (batches ++ more) = runRounds (runRounds s batches) more := by
    simp [runRounds, List.foldl_append]
  have hsub := runRounds_sublist more (runRounds s batches)
  rw [happ]
  exact ⟨hsub.length_le, (runRounds_sublist batches s).length_le,
    fun w hw hmem => hw (hsub.subset hmem)⟩

/-- Witness for C7: the word `AAAAA`, removed by the constraint "position 0
must be B", is still absent after a further (empty) batch. -/
theorem pool_monotone_witness :
    ['A','A','A','A','A'] ∉
      (runRounds (emptyCollection, [['A','A','A','A','A']])
        ([([⟨0, 'B', true⟩], [])] ++ [([], [])])).2 :=
  (pool_monotone (emptyCollection, [['A','A','A','A','A']])
    [([⟨0, 'B', true⟩], [])] [([], [])]).2.2 ['A','A','A','A','A'] (by decide)

/-- Membership in the derived letter-count constraint set, characterized
index-by-index.  Because the source's inner loop tests the feedback at the
outer index, a Misplaced index yields the letter's full multiplicity in the
guess and an Absent index always yields count 0. -/
theorem mem_generateLetterCountConstraints (guess feedback : List Char)
    (c : LetterCountConstraint) :
    c ∈ generateLetterCountConstraints guess feedback ↔
      ∃ index, index < WORD_LENGTH ∧
        ((feedback.getD index ' ' = WRONG_SPOT ∧
            c = ⟨(guess.filter (fun ch => ch == guess.getD index ' ')).length,
                 guess.getD index ' ', true⟩) ∨
         (feedback.getD index ' ' = NOT_THERE ∧
            c = ⟨0, guess.getD index ' ', false⟩)) := by
  have hWY : (NOT_THERE == WRONG_SPOT) = false := by decide
  have hWG : (NOT_THERE == RIGHT_SPOT) = false := by decide
  have hYW : WRONG_SPOT ≠ NOT_THERE := by decide
  have hNW : NOT_THERE ≠ WRONG_SPOT := by decide
  simp only [generateLetterCountConstraints, Finset.mem_biUnion, Finset.mem_range]
  refine exists_congr fun i => and_congr_right fun hi => ?_
  by_cases hY : feedback.getD i ' ' = WRONG_SPOT
  · rw [if_pos (by rw [hY]; decide), hY]
    simp only [Finset.mem_singleton, beq_self_eq_true, Bool.true_or, Bool.and_true, hYW,
      false_and, or_false, eq_self_iff_true, true_and]
  · rw [if_neg (by simp only [beq_iff_eq]; exact hY)]
    by_cases hW : feedback.getD i ' ' = NOT_THERE
    · rw [if_pos (by rw [hW]; decide), hW]
      simp only [Finset.mem_singleton, hWY, hWG, Bool.or_self, Bool.and_false,
        List.filter_false, List.length_nil, hNW, false_and, false_or, eq_self_iff_true,
        true_and]
    · rw [if_neg (by simp only [beq_iff_eq]; exact hW)]
      constructor
      · intro h
        exact absurd h (Finset.not_mem_empty c)
      · rintro (⟨h, _⟩ | ⟨h, _⟩)
        · exact absurd h hY
        · exact absurd h hW

/-- C10 amended: for valid guess and feedback, every letter-count constraint
the code derives satisfies the constructor's assertions — its count is below
`WORD_LENGTH` and its letter is in A–Z — provided it is not the case that all
guess letters are identical while some feedback symbol is Misplaced; in that
excluded case the Misplaced index's count equals `WORD_LENGTH` (the letter's
full multiplicity in the guess) and the assertion `m_count < WORD_LENGTH`
fails, as the counterexample shows. -/
theorem letterCount_asserts_hold (guess feedback : List Char)
    (hg : guess.length = WORD_LENGTH)
    (hga : ∀ ch ∈ guess, 'A' ≤ ch ∧ ch ≤ 'Z')
    (hnot : ¬ ((∀ ch ∈ guess, ch = guess.getD 0 ' ') ∧
               ∃ i, i < WORD_LENGTH ∧ feedback.getD i ' ' = WRONG_SPOT)) :
    ∀ c ∈ generateLetterCountConstraints guess feedback,
      c.m_count < WORD_LENGTH ∧ 'A' ≤ c.m_letter ∧ c.m_letter ≤ 'Z' := by
  intro c hc
  rw [mem_generateLetterCountConstraints] at hc
  obtain ⟨i, hi, hcase⟩ := hc
  have hil : i < guess.length := by rw [hg]; exact hi
  have hgl : guess.getD i ' ' ∈ guess := by
    rw [List.getD_eq_getElem _ _ hil]
    exact List.getElem_mem _
  rcases hcase with ⟨hY, rfl⟩ | ⟨hW, rfl⟩
  · refine ⟨?_, (hga _ hgl).1, (hga _ hgl).2⟩
    have hle : (guess.filter (fun ch => ch == guess.getD i ' ')).length ≤ guess.length :=
      List.length_filter_le _ _
    rcases Nat.lt_or_ge (guess.filter (fun ch => ch == guess.getD i ' ')).length
        WORD_LENGTH with h | h
    · exact h
    · exfalso
      have heq : (guess.filter (fun ch => ch == guess.getD i ' ')).length = guess.length := by
        omega
      have hall := List.filter_length_eq_length.mp heq
      apply hnot
      refine ⟨?_, i, hi, hY⟩
      intro ch hch
      have h0l : (0 : Nat) < guess.length := by omega
      have h0 : guess.getD 0 ' ' ∈ guess := by
        rw [List.getD_eq_getElem _ _ h0l]
        exact List.getElem_mem _
      have e1 : ch = guess.getD i ' ' := by
        have := hall ch hch
        simpa using this
      have e2 : guess.getD 0 ' ' = guess.getD i ' ' := by
        have := hall (guess.getD 0 ' ') h0
        simpa using this
      rw [e1, e2]
  · exact ⟨by simp [WORD_LENGTH], (hga _ hgl).1, (hga _ hgl).2⟩

/-- Witness for C10 (amended): on guess `CRANE` with feedback
`Exact,Absent,Absent,Absent,Absent`, the emitted constraint for R satisfies the
constructor's assertions. -/
theorem letterCount_asserts_hold_witness :
    (⟨0, 'R', false⟩ : LetterCountConstraint).m_count < WORD_LENGTH ∧
    'A' ≤ (⟨0, 'R', false⟩ : LetterCountConstraint).m_letter ∧
    (⟨0, 'R', false⟩ : LetterCountConstraint).m_letter ≤ 'Z' :=
  letterCount_asserts_hold ['C','R','A','N','E'] ['G','W','W','W','W']
    (by decide) (by decide)
    (by
      intro h
      exact absurd (h.1 'R' (by decide)) (by decide))
    ⟨0, 'R', false⟩ (by decide)

/-- C9 counterexample: fed the case-variant duplicates `HELLO` and `hello`, the
loader's `assert (m_possibleWords.count (temp) == 0)` fires (the second token
normalizes to the word already present), so loading fails instead of
deduplicating. -/
theorem loadWords_case_variant_aborts :
    loadWords [['H','E','L','L','O'], ['h','e','l','l','o']] [] = none ∧
    normalizeWord ['h','e','l','l','o'] = ['H','E','L','L','O'] := by
  decide

/-- The loader, started from any already-loaded collection: when the kept
tokens extend the collection without collisions, it returns the collection
followed by the kept tokens in order. -/
theorem loadWords_go (tokens : List (List Char)) :
    ∀ acc, (acc ++ keptWords tokens).Nodup →
      loadWords tokens acc = some (acc ++ keptWords tokens) := by
  induction tokens with
  | nil =>
      intro acc h
      simp [loadWords, keptWords]
  | cons t ts ih =>
      intro acc h
      by_cases h1 : t.length = WORD_LENGTH
      · by_cases h2 : t.all charOk = true
        · have hk : keptWords (t :: ts) = normalizeWord t :: keptWords ts := by
            simp only [keptWords, if_pos (And.intro h1 h2)]
          rw [hk] at h ⊢
          have hnin : normalizeWord t ∉ acc := by
            rw [List.nodup_append] at h
            intro hmem
            exact h.2.2 hmem (List.mem_cons_self _ _)
          simp only [loadWords, if_pos h1, if_pos h2, if_neg hnin]
          rw [ih (acc ++ [normalizeWord t])
            (by rw [List.append_assoc]; simpa using h)]
          simp
        · have hk : keptWords (t :: ts) = keptWords ts := by
            simp only [keptWords, if_neg (fun hc : _ ∧ _ => h2 hc.2)]
          rw [hk] at h ⊢
          simp only [loadWords, if_pos h1, if_neg h2]
          exact ih acc h
      · have hk : keptWords (t :: ts) = keptWords ts := by
          simp only [keptWords, if_neg (fun hc : _ ∧ _ => h1 hc.1)]
        rw [hk] at h ⊢
        simp only [loadWords, if_neg h1]
        exact ih acc h

/-- Membership in the kept words: exactly the normalizations of the tokens of
the right length whose characters all pass the loader's test. -/
theorem mem_keptWords (tokens : List (List Char)) (w : List Char) :
    w ∈ keptWords tokens ↔
      ∃ t ∈ tokens, t.length = WORD_LENGTH ∧ t.all charOk = true ∧
        normalizeWord t = w := by
  induction tokens with
  | nil => simp [keptWords]
  | cons t ts ih =>
      by_cases h1 : t.length = WORD_LENGTH ∧ t.all charOk = true
      · simp only [keptWords, if_pos h1, List.mem_cons, ih]
        constructor
        · rintro (rfl | ⟨u, hu, hq⟩)
          · exact ⟨t, Or.inl rfl, h1.1, h1.2, rfl⟩
          · exact ⟨u, Or.inr hu, hq⟩
        · rintro ⟨u, hu, q1, q2, q3⟩
          rcases hu with rfl | hu
          · exact Or.inl q3.symm
          · exact Or.inr ⟨u, hu, q1, q2, q3⟩
      · simp only [keptWords, if_neg h1, ih]
        constructor
        · rintro ⟨u, hu, hq⟩
          exact ⟨u, List.mem_cons_of_mem _ hu, hq⟩
        · rintro ⟨u, hu, q1, q2, q3⟩
          rcases List.mem_cons.mp hu with rfl | hu
          · exact absurd ⟨q1, q2⟩ h1
          · exact ⟨u, hu, q1, q2, q3⟩

/-- C9 amended: the loader keeps exactly the tokens of exactly `WORD_LENGTH`
alphabetic characters, normalized to uppercase, silently discarding every
other token — but it does not deduplicate: it produces the collection of kept
words only when no two kept tokens normalize to the same word (otherwise the
duplicate assertion fires, as the counterexample shows). -/
theorem loadWords_keeps_exactly (tokens : List (List Char))
    (h : (keptWords tokens).Nodup) :
    loadWords tokens [] = some (keptWords tokens) ∧
    ∀ w, w ∈ keptWords tokens ↔
      ∃ t ∈ tokens, t.length = WORD_LENGTH ∧ t.all charOk = true ∧
        normalizeWord t = w := by
  constructor
  · simpa using loadWords_go tokens [] (by simpa using h)
  · exact mem_keptWords tokens

/-- Witness for C9 (amended): among `HELLO`, `ab` and `WORLD` the loader keeps
exactly the two five-letter alphabetic tokens. -/
theorem loadWords_keeps_exactly_witness :
    loadWords [['H','E','L','L','O'], ['a','b'], ['W','O','R','L','D']] [] =
      some (keptWords [['H','E','L','L','O'], ['a','b'], ['W','O','R','L','D']]) ∧
    ∀ w, w ∈ keptWords [['H','E','L','L','O'], ['a','b'], ['W','O','R','L','D']] ↔
      ∃ t ∈ [['H','E','L','L','O'], ['a','b'], ['W','O','R','L','D']],
        t.length = WORD_LENGTH ∧ t.all charOk = true ∧ normalizeWord t = w :=
  loadWords_keeps_exactly [['H','E','L','L','O'], ['a','b'], ['W','O','R','L','D']]
    (by decide)

end CHWordleBot
